import Mathlib

/-!
# DeepScrape crawl engine: shallow embedding and verification

This file embeds the crawl engine of the DeepScrape repository in Lean 4 and
proves properties about it.  The embedded code is:

* `spiderCrawl` from `deepscrape.cjs` (lines 291-387), modelled as the state
  type `DsState` with step function `dsStep` and iterated runner `dsRun`;
* `spiderCrawl` from `src/spider.js` (lines 29-112), modelled as the state
  type `SpState` with step function `spStep` and iterated runner `spRun`;
* `isImageUrl` from `src/spider.js` (lines 15-19);
* the `href="..."` link-extraction regex from `src/spider.js` (line 73),
  modelled as `extractHrefs`;
* `fixRelativePaths` from `src/fileHandler.js` (lines 66-75), modelled as a
  character-list scan faithful to the JavaScript global-regex replacement.

The JavaScript runtime's WHATWG `URL` class (an external platform API, not
repository code) is modelled by `jsParseAbs` / `jsResolveL` / `jsHostname` on
a restricted grammar: `http`/`https` schemes, no userinfo or port, ASCII-safe
character sets, no dot segments, no percent-encoding, and no
protocol-relative references.  Inputs outside the restricted grammar parse to
`none`; inside the grammar the model agrees with the WHATWG algorithm
(schemes and hosts are lowercased, an empty path serializes as "/", query and
fragment are preserved verbatim and in order).
-/

/-- Characters accepted in a host name by the restricted URL model. -/
def hostChar (c : Char) : Bool :=
  c.isAlphanum || c = '.' || c = '-'

/-- Characters accepted in a path by the restricted URL model. -/
def pathChar (c : Char) : Bool :=
  c.isAlphanum || c = '/' || c = '.' || c = '-' || c = '_' || c = '~'

/-- Characters accepted in a query or fragment by the restricted URL model. -/
def queryChar (c : Char) : Bool :=
  c.isAlphanum || c = '=' || c = '&' || c = '-' || c = '.' || c = '_' ||
  c = '/' || c = ':'

/-- A path contains a dot segment (`.` or `..` as a whole segment); the
restricted URL model rejects such paths rather than normalizing them. -/
def hasDotSegment (p : List Char) : Bool :=
  (p.splitOn '/').any (fun seg => seg = ['.'] || seg = ['.', '.'])

/-- Parsed form of an absolute URL in the restricted model, mirroring the
components the WHATWG URL serializer uses. -/
structure JsUrl where
  scheme : List Char
  host : List Char
  path : List Char
  query : Option (List Char)
  frag : Option (List Char)
deriving DecidableEq, Repr

/-- Serialize path, query and fragment exactly as `URL#href` does: an empty
path of a special-scheme URL prints as `/`, a present query prints with `?`
(also when empty), a present fragment prints with `#` (also when empty). -/
def JsUrl.tailString (u : JsUrl) : List Char :=
  (if u.path = [] then ['/'] else u.path) ++
  (match u.query with | some q => '?' :: q | none => []) ++
  (match u.frag with | some f => '#' :: f | none => [])

/-- Serialization of a parsed URL, as `URL#href` returns it. -/
def JsUrl.href (u : JsUrl) : List Char :=
  u.scheme ++ (':' :: '/' :: '/' :: u.host) ++ u.tailString

/-- Parse the `path`, `?query` and `#fragment` tail of a URL (the part that
follows the authority), rejecting inputs outside the restricted grammar. -/
def parseTail (s : List Char) : Option (List Char × Option (List Char) × Option (List Char)) :=
  let path := s.takeWhile (fun c => c ≠ '?' && c ≠ '#')
  let r := s.dropWhile (fun c => c ≠ '?' && c ≠ '#')
  if path.all pathChar && !hasDotSegment path then
    match r with
    | [] => some (path, none, none)
    | '#' :: f => if f.all queryChar then some (path, none, some f) else none
    | '?' :: qf =>
      let q := qf.takeWhile (fun c => c ≠ '#')
      if q.all queryChar then
        match qf.dropWhile (fun c => c ≠ '#') with
        | [] => some (path, some q, none)
        | '#' :: f => if f.all queryChar then some (path, some q, some f) else none
        | _ => none
      else none
    | _ => none
  else none

/-- Parse an absolute URL string on the restricted grammar, as the one-argument
WHATWG `new URL(s)` does: lowercase the scheme (only `http`/`https` are
modelled), lowercase the host, keep path, query and fragment verbatim. -/
def jsParseAbs (s : List Char) : Option JsUrl :=
  let sch := s.takeWhile (fun c => c ≠ ':')
  let r := s.dropWhile (fun c => c ≠ ':')
  if sch ≠ [] ∧ sch.all Char.isAlpha then
    match r with
    | ':' :: '/' :: '/' :: r2 =>
      let schemeL := sch.map Char.toLower
      if schemeL = "http".toList ∨ schemeL = "https".toList then
        let host := r2.takeWhile (fun c => c ≠ '/' && c ≠ '?' && c ≠ '#')
        let r3 := r2.dropWhile (fun c => c ≠ '/' && c ≠ '?' && c ≠ '#')
        if host ≠ [] ∧ host.all hostChar then
          match parseTail r3 with
          | some (p, q, f) => some ⟨schemeL, host.map Char.toLower, p, q, f⟩
          | none => none
        else none
      else none
    | _ => none
  else none

/-- Drop everything after the last `/` of a base path, as the WHATWG merge
step for relative references does; an empty base path behaves as `/`. -/
def dirOf (p : List Char) : List Char :=
  if p = [] then ['/'] else ((p.reverse.dropWhile (fun c => c ≠ '/')).reverse)

/-- Resolution of a non-absolute reference `link` against a parsed base, per
the WHATWG algorithm on the restricted grammar: the empty reference keeps the
base's path and query, path-absolute (`/p`), query-only (`?q`) and
fragment-only (`#f`) references replace the corresponding components, and a
plain-relative reference is merged onto the base path's directory.
Protocol-relative references (`//h`) and plain-relative references containing
`:` (which JavaScript would parse as a scheme) are outside the model. -/
def jsRelResolve (b : JsUrl) (link : List Char) : Option (List Char) :=
  if link = [] then some (JsUrl.href ⟨b.scheme, b.host, b.path, b.query, none⟩)
  else if "//".toList.isPrefixOf link then none
  else if link.head? = some '/' then
    match parseTail link with
    | some (p, q, f) => some (JsUrl.href ⟨b.scheme, b.host, p, q, f⟩)
    | none => none
  else if link.head? = some '#' then
    if link.tail.all queryChar then
      some (JsUrl.href ⟨b.scheme, b.host, b.path, b.query, some link.tail⟩)
    else none
  else if link.head? = some '?' then
    let qf := link.tail
    let q := qf.takeWhile (fun c => c ≠ '#')
    if q.all queryChar then
      match qf.dropWhile (fun c => c ≠ '#') with
      | [] => some (JsUrl.href ⟨b.scheme, b.host, b.path, some q, none⟩)
      | '#' :: f =>
        if f.all queryChar then
          some (JsUrl.href ⟨b.scheme, b.host, b.path, some q, some f⟩)
        else none
      | _ => none
    else none
  else if ':' ∈ link then none
  else
    match parseTail (dirOf b.path ++ link) with
    | some (p, q, f) => some (JsUrl.href ⟨b.scheme, b.host, p, q, f⟩)
    | none => none

/-- The two-argument WHATWG constructor `new URL(link, base).href` on the
restricted grammar.  The base is parsed first and an unparsable base yields
`none` (the constructor throws) even for an absolute `link`, per the WHATWG
specification.  A `link` that is itself absolute is serialized directly,
otherwise it is resolved as a relative reference. -/
def jsResolveL (link base : List Char) : Option (List Char) :=
  match jsParseAbs base with
  | none => none
  | some b =>
    match jsParseAbs link with
    | some u => some u.href
    | none => jsRelResolve b link

/-- String-level wrapper for `new URL(link, base).href`. -/
def jsResolve (link base : String) : Option String :=
  (jsResolveL link.toList base.toList).map List.asString

/-- Model of `new URL(u).hostname` on the restricted grammar. -/
def jsHostname (u : String) : Option String :=
  (jsParseAbs u.toList).map (fun p => p.host.asString)

/-- Image file extensions listed in the first two regexes of `isImageUrl`
(`src/spider.js` lines 16-17). -/
def imageExts : List String :=
  ["jpg", "jpeg", "png", "gif", "svg", "webp", "bmp", "ico"]

/-- Whether `pat` occurs as a contiguous substring of `s`. -/
def hasInfix (pat : List Char) (s : List Char) : Bool :=
  match s with
  | [] => pat.isEmpty
  | _ :: tail => pat.isPrefixOf s || hasInfix pat tail

/-- Model of `isImageUrl` (`src/spider.js` lines 15-19): the URL ends with an
image extension, ends with an image extension followed by `.html`/`.htm`
(both tests case-insensitive), or contains `?img=` or `&img=`. -/
def isImageUrl (url : String) : Bool :=
  let l := url.toList.map Char.toLower
  imageExts.any (fun e => ('.' :: e.toList).isSuffixOf l) ||
  imageExts.any (fun e =>
    ('.' :: e.toList ++ ".html".toList).isSuffixOf l ||
    ('.' :: e.toList ++ ".htm".toList).isSuffixOf l) ||
  hasInfix "?img=".toList url.toList || hasInfix "&img=".toList url.toList

/-- Fuel-driven scan for the global regex `/href="([^"]+)"/g` of
`src/spider.js` line 73: at each index try to match `href="`, a nonempty run
of non-quote characters, and a closing quote; on success capture the run and
continue after the closing quote, otherwise advance one character. -/
def extractHrefsAux : Nat → List Char → List (List Char)
  | 0, _ => []
  | _ + 1, [] => []
  | fuel + 1, c :: tail =>
    if "href=\"".toList.isPrefixOf (c :: tail) then
      let after := (c :: tail).drop 6
      let cap := after.takeWhile (fun ch => ch ≠ '"')
      match after.dropWhile (fun ch => ch ≠ '"') with
      | '"' :: tail2 =>
        if cap = [] then extractHrefsAux fuel tail
        else cap :: extractHrefsAux fuel tail2
      | _ => extractHrefsAux fuel tail
    else extractHrefsAux fuel tail

/-- All capture groups of `/href="([^"]+)"/g` over a page body, in order. -/
def extractHrefs (data : String) : List String :=
  (extractHrefsAux data.toList.length data.toList).map List.asString

/-- A frontier entry `{url, depth}` as pushed by both spider loops. -/
structure CrawlTask where
  url : String
  depth : Nat
deriving DecidableEq, Repr

/-- Ghost record of one enqueue performed during link expansion: the task
being processed (`parent`) and the task pushed (`child`). -/
structure PushRec where
  parent : CrawlTask
  child : CrawlTask
deriving DecidableEq, Repr

/-- JavaScript `Set.add` on an insertion-ordered list model. -/
def setAdd [DecidableEq α] (s : List α) (a : α) : List α :=
  if a ∈ s then s else s ++ [a]

/-- Model of JavaScript `String.trim` (restricted to the whitespace characters
`Char.isWhitespace` covers). -/
def jsTrim (s : String) : String :=
  (((s.toList.dropWhile Char.isWhitespace).reverse.dropWhile
      Char.isWhitespace).reverse).asString

/-- Split a string at commas, as `u.split(',')` does. -/
def splitCommas (s : String) : List String :=
  (s.toList.splitOn ',').map List.asString

/-- Seed preprocessing of `spiderCrawl` in `deepscrape.cjs` (lines 297-304):
each start URL containing a comma is split at commas, trimmed and filtered
for non-emptiness; other start URLs are trimmed. -/
def splitSeeds (startUrls : List String) : List String :=
  startUrls.foldl
    (fun acc u =>
      if ',' ∈ u.toList then
        acc ++ ((splitCommas u).map jsTrim).filter (fun x => x ≠ "")
      else acc ++ [jsTrim u])
    []

/-- Status of the `axios.head` probe in `deepscrape.cjs` (lines 323-331):
either a numeric status (from the response or from `error.response.status`)
or the string marker `ERROR`. -/
inductive DsStatus
  | code (n : Nat)
  | error
deriving DecidableEq, Repr

/-- The expansion guard of `deepscrape.cjs` line 335:
`statusCode !== 'ERROR' && statusCode < 400`. -/
def dsStatusOk : DsStatus → Bool
  | .code n => n < 400
  | .error => false

/-- Environment of the `deepscrape.cjs` spider: the probe outcome per URL,
whether the Puppeteer phase (newPage/goto/banner/scrape/anchor collection)
succeeds, and the anchor `href` attributes collected from the rendered page. -/
structure DsEnv where
  probe : String → DsStatus
  renderOk : String → Bool
  anchors : String → List String

/-- State of the `deepscrape.cjs` spider loop, with ghost fields `dequeued`
(every task ever shifted off the queue), `pushes` (every enqueue performed by
link expansion) and `rendered` (every URL for which the Puppeteer phase was
entered). -/
structure DsState where
  queue : List CrawlTask
  visited : List String
  results : List (String × DsStatus)
  dequeued : List CrawlTask
  pushes : List PushRec
  rendered : List String
deriving DecidableEq, Repr

/-- Initial state of `deepscrape.cjs spiderCrawl` (lines 293-309): every seed
is pushed at depth 0 and added to `visited`. -/
def dsInit (startUrls : List String) : DsState :=
  let seeds := splitSeeds startUrls
  { queue := seeds.map (fun u => ⟨u, 0⟩)
    visited := seeds.foldl setAdd []
    results := []
    dequeued := []
    pushes := []
    rendered := [] }

/-- One iteration of the anchor loop of `deepscrape.cjs` (lines 354-366):
resolve the href against the current page, and when it parses, has the same
hostname as the current page and is not yet in `visited`, mark it visited and
enqueue it at `depth + 1`.  Any URL-parsing failure is caught and skips the
link. -/
def dsLinkStep (parent : CrawlTask) (dom : String) (s : DsState) (link : String) : DsState :=
  match jsResolve link parent.url with
  | none => s
  | some newUrl =>
    match jsHostname newUrl with
    | none => s
    | some linkDom =>
      if linkDom = dom ∧ newUrl ∉ s.visited then
        { s with
          visited := s.visited ++ [newUrl]
          queue := s.queue ++ [⟨newUrl, parent.depth + 1⟩]
          pushes := s.pushes ++ [⟨parent, ⟨newUrl, parent.depth + 1⟩⟩] }
      else s

/-- One iteration of the `while (queue.length > 0)` loop of
`deepscrape.cjs spiderCrawl` (lines 318-376): shift a task, probe it, record
the result, and when the status is OK and the depth is below `maxDepth`,
enter the Puppeteer phase; when that succeeds, expand the page's anchors
within the page's own domain.  On an empty queue the state is unchanged. -/
def dsStep (env : DsEnv) (maxDepth : Nat) (s : DsState) : DsState :=
  match s.queue with
  | [] => s
  | t :: rest =>
    let st := env.probe t.url
    let s1 : DsState :=
      { s with
        queue := rest
        results := s.results ++ [(t.url, st)]
        dequeued := s.dequeued ++ [t] }
    if dsStatusOk st ∧ t.depth < maxDepth then
      let s2 := { s1 with rendered := s1.rendered ++ [t.url] }
      if env.renderOk t.url then
        match jsHostname t.url with
        | none => s2
        | some dom => (env.anchors t.url).foldl (dsLinkStep t dom) s2
      else s2
    else s1

/-- The `deepscrape.cjs` spider after `n` loop iterations. -/
def dsRun (env : DsEnv) (maxDepth : Nat) (startUrls : List String) : Nat → DsState
  | 0 => dsInit startUrls
  | n + 1 => dsStep env maxDepth (dsRun env maxDepth startUrls n)

/-- Textual form of a status in the spider report (`deepscrape.cjs` line
381). -/
def dsStatusText : DsStatus → String
  | .code n => toString n
  | .error => "ERROR"

/-- The `spider_report.txt` contents built at `deepscrape.cjs` lines 379-383:
a header line followed by one `url, status` line per recorded result. -/
def dsReport (results : List (String × DsStatus)) : String :=
  results.foldl (fun acc r => acc ++ r.1 ++ ", " ++ dsStatusText r.2 ++ "\n")
    "URL, STATUS\n"

/-- Environment of the `src/spider.js` spider: the outcome of
`axios.head(url)` (`none` models a thrown error, `some b` a response whose
content type includes `text/html` iff `b`), and the outcome of
`axios.get(url)` (`none` models a thrown error, `some data` the page body).
The renderer call `scrapePage` catches all its internal errors
(`src/scraper.js`), so it needs no environment entry. -/
structure SpEnv where
  head : String → Option Bool
  page : String → Option String

/-- State of the `src/spider.js` spider loop (lines 47-53), with ghost fields
`dequeued` (every task ever shifted off the queue), `pushes` (every enqueue
performed by link expansion) and `scraped` (every URL passed to
`scrapePage`). -/
structure SpState where
  queue : List CrawlTask
  visited : List String
  queuedSet : List String
  linksList : List String
  brokenLinks : List String
  incomingLinks : List (String × List String)
  dequeued : List CrawlTask
  pushes : List PushRec
  scraped : List String
deriving DecidableEq, Repr

/-- Initial state of `src/spider.js spiderCrawl`: the start URLs become the
queue at depth 0 (line 49); all sets start empty.  Returns `none` when the
start list is empty (line 30) or the first start URL does not parse (line 35
throws); otherwise also returns the crawl's domain
`new URL(startUrls[0]).hostname`. -/
def spInit (startUrls : List String) : Option (String × SpState) :=
  match startUrls with
  | [] => none
  | u0 :: _ =>
    match jsHostname u0 with
    | none => none
    | some dom =>
      some (dom,
        { queue := startUrls.map (fun u => ⟨u, 0⟩)
          visited := []
          queuedSet := []
          linksList := []
          brokenLinks := []
          incomingLinks := []
          dequeued := []
          pushes := []
          scraped := [] })

/-- Model of the `incomingLinks` update of `src/spider.js` lines 95-98: insert
an empty list for the key when absent, then push the value onto the key's
list. -/
def mapPush (m : List (String × List String)) (k v : String) : List (String × List String) :=
  if m.any (fun e => e.1 = k) then
    m.map (fun e => if e.1 = k then (e.1, e.2 ++ [v]) else e)
  else m ++ [(k, [v])]

/-- Lines 95-101 of `src/spider.js`, reached after the try/catch: record the
URL in its own incoming-links entry and call `scrapePage` on it. -/
def spFinishTask (u : String) (s : SpState) : SpState :=
  { s with
    incomingLinks := mapPush s.incomingLinks u u
    scraped := s.scraped ++ [u] }

/-- One iteration of the link loop of `src/spider.js` (lines 75-89): resolve
the href against the current page (invalid URLs are caught and skipped); skip
image URLs and URLs already visited or queued; otherwise record the link in
`linksList` and `queued`, and when its hostname equals the crawl domain,
enqueue it at `depth + 1`. -/
def spLinkStep (dom : String) (parent : CrawlTask) (s : SpState) (rawLink : String) : SpState :=
  match jsResolve rawLink parent.url with
  | none => s
  | some link =>
    if isImageUrl link ∨ link ∈ s.visited ∨ link ∈ s.queuedSet then s
    else
      let s1 := { s with
        linksList := setAdd s.linksList link
        queuedSet := setAdd s.queuedSet link }
      match jsHostname link with
      | none => s1
      | some linkDom =>
        if linkDom = dom then
          { s1 with
            queue := s1.queue ++ [⟨link, parent.depth + 1⟩]
            pushes := s1.pushes ++ [⟨parent, ⟨link, parent.depth + 1⟩⟩] }
        else s1

/-- One iteration of the `while (queue.length)` loop of
`src/spider.js spiderCrawl` (lines 57-102): shift a task; skip it when its
depth reached `maxDepth`, it was already visited, or it is an image URL
(line 59); otherwise mark it visited and probe it.  A probe or fetch error
adds it to `brokenLinks`; a non-HTML content type skips the rest of the
iteration (line 69); a fetched page has its hrefs expanded.  Except on the
skip paths, the URL is then recorded in `incomingLinks` and passed to
`scrapePage`. -/
def spStep (env : SpEnv) (dom : String) (maxDepth : Nat) (s : SpState) : SpState :=
  match s.queue with
  | [] => s
  | t :: rest =>
    let s0 := { s with queue := rest, dequeued := s.dequeued ++ [t] }
    if maxDepth ≤ t.depth ∨ t.url ∈ s.visited ∨ isImageUrl t.url then s0
    else
      let s1 := { s0 with visited := s0.visited ++ [t.url] }
      match env.head t.url with
      | none => spFinishTask t.url { s1 with brokenLinks := setAdd s1.brokenLinks t.url }
      | some false => s1
      | some true =>
        match env.page t.url with
        | none => spFinishTask t.url { s1 with brokenLinks := setAdd s1.brokenLinks t.url }
        | some data =>
          spFinishTask t.url ((extractHrefs data).foldl (spLinkStep dom t) s1)

/-- Iterate the `src/spider.js` loop body `n` times from a given state. -/
def spIter (env : SpEnv) (dom : String) (maxDepth : Nat) (s0 : SpState) : Nat → SpState
  | 0 => s0
  | n + 1 => spStep env dom maxDepth (spIter env dom maxDepth s0 n)

/-- The `src/spider.js` spider after `n` loop iterations, or `none` when
`spiderCrawl` bails out before its loop. -/
def spRun (env : SpEnv) (maxDepth : Nat) (startUrls : List String) (n : Nat) :
    Option (String × SpState) :=
  match spInit startUrls with
  | none => none
  | some (dom, s0) => some (dom, spIter env dom maxDepth s0 n)

/-- Environment of the `src/spider.js` spider extended with the one
operation of `scrapePage` that its internal try/catch does NOT cover: the
prelude `browser.newPage()` / `page.setViewport(...)` (`src/scraper.js`
lines preceding the try), whose rejection propagates out of `scrapePage`. -/
structure SpEnvX where
  head : String → Option Bool
  page : String → Option String
  newPageOk : String → Bool

/-- One iteration of the `src/spider.js` loop in an environment where
`scrapePage`'s uncaught prelude may fail.  The loop body calls `scrapePage`
on every path except the dequeue-time skip (line 59) and the non-HTML
`continue` (line 69); the call at line 100 is not guarded by any try/catch,
so when the prelude rejects there the exception escapes `spiderCrawl`: the
loop stops and the report files at lines 107-109 are never written, which
`none` models (the in-memory state is discarded since nothing is persisted).
When the prelude succeeds, every other failure mode is caught — inside the
loop's try/catch or inside `scrapePage` — and the iteration is exactly
`spStep`. -/
def spStepE (env : SpEnvX) (dom : String) (maxDepth : Nat) (s : SpState) : Option SpState :=
  match s.queue with
  | [] => some s
  | t :: _ =>
    if (¬(maxDepth ≤ t.depth ∨ t.url ∈ s.visited ∨ isImageUrl t.url) ∧
          env.head t.url ≠ some false) ∧
        env.newPageOk t.url = false then
      none
    else some (spStep ⟨env.head, env.page⟩ dom maxDepth s)

/-- The `src/spider.js` spider after `n` loop iterations under a fallible
`scrapePage` prelude; `none` means the crawl aborted (or never started). -/
def spRunE (env : SpEnvX) (maxDepth : Nat) (startUrls : List String) : Nat → Option (String × SpState)
  | 0 => spInit startUrls
  | n + 1 =>
    match spRunE env maxDepth startUrls n with
    | none => none
    | some (dom, s) => (spStepE env dom maxDepth s).map (fun s2 => (dom, s2))

/-- A character the JavaScript regex `.` (without the `s` flag) does not
match: the four line terminators. -/
def lineTerm (c : Char) : Bool :=
  c = '\n' || c = '\r' || c.toNat = 0x2028 || c.toNat = 0x2029

/-- Attempt to match the regex alternation plus literal `(src|href)="` of
`fixRelativePaths` at the head of `s`; on success return the attribute name
and the remaining characters after the opening quote. -/
def fixAttrAt (s : List Char) : Option (List Char × List Char) :=
  if "src=\"".toList.isPrefixOf s then some ("src".toList, s.drop 5)
  else if "href=\"".toList.isPrefixOf s then some ("href".toList, s.drop 6)
  else none

/-- Attempt to match the whole regex `(src|href)="(?!http)(.*?)"` of
`fixRelativePaths` (`src/fileHandler.js` line 67) at the head of `s`.  The
negative lookahead rejects values starting with `http`; the lazy group
captures up to the first quote and cannot cross a line terminator; the match
requires a closing quote.  Returns the attribute name, captured value,
matched text and remaining input. -/
def fixMatchAt (s : List Char) :
    Option (List Char × List Char × List Char × List Char) :=
  match fixAttrAt s with
  | none => none
  | some (attr, after) =>
    if "http".toList.isPrefixOf after then none
    else
      let cap := after.takeWhile (fun c => c ≠ '"')
      let rest := after.dropWhile (fun c => c ≠ '"')
      if rest.head? = some '"' ∧ cap.all (fun c => !lineTerm c) then
        some (attr, cap, attr ++ '=' :: '"' :: (cap ++ ['"']), rest.tail)
      else none

/-- The replacement text of `fixRelativePaths`: `attr="resolved"` when
`new URL(link, baseUrl)` succeeds, otherwise the original `attr="link"`. -/
def fixRepl (base attr link : List Char) : List Char :=
  attr ++ '=' :: '"' :: (((jsResolveL link base).getD link) ++ ['"'])

/-- Fuel-driven global-replace scan of `String.replace(regex, fn)`: at each
index try the regex; on a match emit the replacement and continue after the
match, otherwise copy one character and advance. -/
def fixScanAux (base : List Char) : Nat → List Char → List Char
  | 0, s => s
  | _ + 1, [] => []
  | fuel + 1, c :: cs =>
    match fixMatchAt (c :: cs) with
    | some (attr, link, _, rest) => fixRepl base attr link ++ fixScanAux base fuel rest
    | none => c :: fixScanAux base fuel cs

/-- Model of `fixRelativePaths` (`src/fileHandler.js` lines 66-75, duplicated
at lines 147-156): replace every match of `/(src|href)="(?!http)(.*?)"/g` in
`html` by `attr="new URL(link, baseUrl).href"`, leaving the matched text
unchanged when URL resolution fails. -/
def fixRelativePaths (html baseUrl : String) : String :=
  (fixScanAux baseUrl.toList html.toList.length html.toList).asString

/-- The capture groups the `fixRelativePaths` scan matches, in scan order. -/
def fixScanLinksAux : Nat → List Char → List (List Char)
  | 0, _ => []
  | _ + 1, [] => []
  | fuel + 1, c :: cs =>
    match fixMatchAt (c :: cs) with
    | some (_, link, _, rest) => link :: fixScanLinksAux fuel rest
    | none => fixScanLinksAux fuel cs

/-- All values captured by the `fixRelativePaths` regex over a document. -/
def fixScanLinks (html : String) : List (List Char) :=
  fixScanLinksAux html.toList.length html.toList

/-- Core invariant of the `deepscrape.cjs` spider loop: every queued or
dequeued task is marked visited and respects the depth bound, every ghost
push was made from a task strictly below `maxDepth` to its depth successor,
the Puppeteer phase is only ever entered for URLs whose probe passed the
status guard, and the results list mirrors the dequeue history. -/
def dsInvCore (env : DsEnv) (md : Nat) (s : DsState) : Prop :=
  (∀ t ∈ s.queue, t.url ∈ s.visited ∧ t.depth ≤ md) ∧
  (∀ t ∈ s.dequeued, t.url ∈ s.visited ∧ t.depth ≤ md) ∧
  (∀ p ∈ s.pushes, p.parent.depth < md ∧ p.child.depth = p.parent.depth + 1) ∧
  (∀ u ∈ s.rendered, dsStatusOk (env.probe u) = true) ∧
  s.results = s.dequeued.map (fun t => (t.url, env.probe t.url))

/-- Deduplication invariant of the `deepscrape.cjs` spider loop: no URL
occurs twice across the dequeue history and the pending queue. -/
def dsNodup (s : DsState) : Prop :=
  (s.dequeued.map CrawlTask.url ++ s.queue.map CrawlTask.url).Nodup

/-- Invariant of the `src/spider.js` spider loop: every ghost push targets a
non-image URL of the crawl domain, was made from a task strictly below
`maxDepth` whose HEAD probe reported HTML, and is marked queued; visited and
scraped URLs are never image URLs; queued URLs are recorded in the all-links
list; and every queued or dequeued task is a seed task or a non-image task
of the crawl domain, within the depth bound. -/
def spInv (env : SpEnv) (dom : String) (md : Nat) (seeds : List String) (s : SpState) : Prop :=
  (∀ p ∈ s.pushes,
    jsHostname p.child.url = some dom ∧ isImageUrl p.child.url = false ∧
    p.parent.depth < md ∧ env.head p.parent.url = some true ∧
    p.child.url ∈ s.queuedSet ∧ p.child.depth = p.parent.depth + 1) ∧
  (∀ u ∈ s.visited, isImageUrl u = false) ∧
  (∀ u ∈ s.scraped, isImageUrl u = false) ∧
  (∀ u ∈ s.queuedSet, u ∈ s.linksList) ∧
  (∀ t ∈ s.queue ++ s.dequeued,
    (t ∈ seeds.map (fun u => ⟨u, 0⟩) ∨
      (jsHostname t.url = some dom ∧ isImageUrl t.url = false)) ∧ t.depth ≤ md)

theorem mem_setAdd_iff [DecidableEq α] {s : List α} {a b : α} :
    a ∈ setAdd s b ↔ a ∈ s ∨ a = b := by
  unfold setAdd
  split
  · next hb =>
    constructor
    · exact fun h => .inl h
    · rintro (h | rfl) <;> assumption
  · simp [List.mem_append]

theorem mem_setAdd_self [DecidableEq α] (s : List α) (a : α) : a ∈ setAdd s a :=
  mem_setAdd_iff.mpr (.inr rfl)

theorem mem_setAdd_of_mem [DecidableEq α] {s : List α} {a : α} (b : α) (h : a ∈ s) :
    a ∈ setAdd s b :=
  mem_setAdd_iff.mpr (.inl h)

theorem mem_foldl_setAdd [DecidableEq α] :
    ∀ (l : List α) (init : List α) (a : α), a ∈ init ∨ a ∈ l → a ∈ l.foldl setAdd init := by
  intro l
  induction l with
  | nil => intro init a h; simpa using h
  | cons b bs ih =>
    intro init a h
    rcases h with h | h
    · exact ih _ _ (.inl (mem_setAdd_of_mem b h))
    · rcases List.mem_cons.mp h with rfl | h
      · exact ih _ _ (.inl (mem_setAdd_self init a))
      · exact ih _ _ (.inr h)

theorem dsLinkStep_fields (t : CrawlTask) (dom : String) (s : DsState) (link : String) :
    (dsLinkStep t dom s link).dequeued = s.dequeued ∧
    (dsLinkStep t dom s link).results = s.results ∧
    (dsLinkStep t dom s link).rendered = s.rendered := by
  cases hr : jsResolve link t.url with
  | none => simp [dsLinkStep, hr]
  | some newUrl =>
    cases hh : jsHostname newUrl with
    | none => simp [dsLinkStep, hr, hh]
    | some linkDom =>
      by_cases hc : linkDom = dom ∧ newUrl ∉ s.visited
      · simp [dsLinkStep, hr, hh, if_pos hc]
      · simp [dsLinkStep, hr, hh, if_neg hc]

theorem dsExpand_fields (t : CrawlTask) (dom : String) :
    ∀ (links : List String) (s : DsState),
      ((links.foldl (dsLinkStep t dom) s).dequeued = s.dequeued ∧
       (links.foldl (dsLinkStep t dom) s).results = s.results ∧
       (links.foldl (dsLinkStep t dom) s).rendered = s.rendered) := by
  intro links
  induction links with
  | nil => intro s; exact ⟨rfl, rfl, rfl⟩
  | cons l ls ih =>
    intro s
    have h1 := dsLinkStep_fields t dom s l
    have h2 := ih (dsLinkStep t dom s l)
    simp only [List.foldl_cons]
    exact ⟨h2.1.trans h1.1, h2.2.1.trans h1.2.1, h2.2.2.trans h1.2.2⟩

theorem dsLinkStep_pres (env : DsEnv) (md : Nat) (t : CrawlTask) (dom : String)
    (ht : t.depth < md) (link : String) (s : DsState) (h : dsInvCore env md s) :
    dsInvCore env md (dsLinkStep t dom s link) ∧
    (dsNodup s → dsNodup (dsLinkStep t dom s link)) := by
  obtain ⟨h1, h2, h3, h4, h5⟩ := h
  cases hr : jsResolve link t.url with
  | none => exact ⟨by simpa [dsLinkStep, hr] using ⟨h1, h2, h3, h4, h5⟩, by simp [dsLinkStep, hr]⟩
  | some newUrl =>
    cases hh : jsHostname newUrl with
    | none =>
      exact ⟨by simpa [dsLinkStep, hr, hh] using ⟨h1, h2, h3, h4, h5⟩, by simp [dsLinkStep, hr, hh]⟩
    | some linkDom =>
      by_cases hc : linkDom = dom ∧ newUrl ∉ s.visited
      · have hstep : dsLinkStep t dom s link =
            { s with
              visited := s.visited ++ [newUrl]
              queue := s.queue ++ [⟨newUrl, t.depth + 1⟩]
              pushes := s.pushes ++ [⟨t, ⟨newUrl, t.depth + 1⟩⟩] } := by
          simp [dsLinkStep, hr, hh, if_pos hc]
        rw [hstep]
        refine ⟨⟨?_, ?_, ?_, h4, h5⟩, ?_⟩
        · intro x hx
          rcases List.mem_append.mp hx with hx | hx
          · exact ⟨List.mem_append_left _ (h1 x hx).1, (h1 x hx).2⟩
          · rcases List.mem_singleton.mp hx with rfl
            exact ⟨List.mem_append_right _ (List.mem_singleton.mpr rfl), ht⟩
        · intro x hx
          exact ⟨List.mem_append_left _ (h2 x hx).1, (h2 x hx).2⟩
        · intro p hp
          rcases List.mem_append.mp hp with hp | hp
          · exact h3 p hp
          · rcases List.mem_singleton.mp hp with rfl
            exact ⟨ht, rfl⟩
        · intro hn
          unfold dsNodup at hn ⊢
          simp only [List.map_append, List.map_cons, List.map_nil]
          have hrearr :
              s.dequeued.map CrawlTask.url ++ (s.queue.map CrawlTask.url ++ [newUrl]) =
              (s.dequeued.map CrawlTask.url ++ s.queue.map CrawlTask.url) ++ [newUrl] := by
            simp [List.append_assoc]
          rw [hrearr]
          have hnew : newUrl ∉ s.dequeued.map CrawlTask.url ++ s.queue.map CrawlTask.url := by
            intro hmem
            rcases List.mem_append.mp hmem with hmem | hmem
            · rcases List.mem_map.mp hmem with ⟨x, hx, hxe⟩
              exact hc.2 (hxe ▸ (h2 x hx).1)
            · rcases List.mem_map.mp hmem with ⟨x, hx, hxe⟩
              exact hc.2 (hxe ▸ (h1 x hx).1)
          exact hn.append (List.nodup_singleton newUrl)
            (fun x hx hx2 => by
              rcases List.mem_singleton.mp hx2 with rfl
              exact hnew hx)
      · exact ⟨by simpa [dsLinkStep, hr, hh, if_neg hc] using ⟨h1, h2, h3, h4, h5⟩,
          by simp [dsLinkStep, hr, hh, if_neg hc]⟩

theorem dsExpand_pres (env : DsEnv) (md : Nat) (t : CrawlTask) (dom : String)
    (ht : t.depth < md) :
    ∀ (links : List String) (s : DsState), dsInvCore env md s →
      dsInvCore env md (links.foldl (dsLinkStep t dom) s) ∧
      (dsNodup s → dsNodup (links.foldl (dsLinkStep t dom) s)) := by
  intro links
  induction links with
  | nil => exact fun s h => ⟨h, fun hn => hn⟩
  | cons l ls ih =>
    intro s h
    have hstep := dsLinkStep_pres env md t dom ht l s h
    have hrest := ih (dsLinkStep t dom s l) hstep.1
    exact ⟨hrest.1, fun hn => hrest.2 (hstep.2 hn)⟩

theorem dsStep_pres (env : DsEnv) (md : Nat) (s : DsState) (h : dsInvCore env md s) :
    dsInvCore env md (dsStep env md s) ∧ (dsNodup s → dsNodup (dsStep env md s)) := by
  obtain ⟨h1, h2, h3, h4, h5⟩ := h
  cases hq : s.queue with
  | nil =>
    have hstep : dsStep env md s = s := by simp [dsStep, hq]
    rw [hstep]
    exact ⟨⟨h1, h2, h3, h4, h5⟩, fun hn => hn⟩
  | cons t rest =>
    set s1 : DsState :=
      { s with
        queue := rest
        results := s.results ++ [(t.url, env.probe t.url)]
        dequeued := s.dequeued ++ [t] } with hs1
    have hmemq : t ∈ s.queue := by rw [hq]; exact List.mem_cons_self t rest
    have hs1core : dsInvCore env md s1 := by
      refine ⟨?_, ?_, h3, h4, ?_⟩
      · intro x hx
        exact h1 x (by rw [hq]; exact List.mem_cons_of_mem t hx)
      · intro x hx
        rcases List.mem_append.mp hx with hx | hx
        · exact h2 x hx
        · rcases List.mem_singleton.mp hx with rfl
          exact h1 x hmemq
      · simp [hs1, h5]
    have hs1nodup : dsNodup s → dsNodup s1 := by
      intro hn
      unfold dsNodup at hn ⊢
      rw [hq] at hn
      simpa [List.append_assoc] using hn
    by_cases hg : dsStatusOk (env.probe t.url) ∧ t.depth < md
    · set s2 : DsState := { s1 with rendered := s1.rendered ++ [t.url] } with hs2
      have hs2core : dsInvCore env md s2 := by
        refine ⟨hs1core.1, hs1core.2.1, hs1core.2.2.1, ?_, hs1core.2.2.2.2⟩
        intro u hu
        rcases List.mem_append.mp hu with hu | hu
        · exact hs1core.2.2.2.1 u hu
        · rcases List.mem_singleton.mp hu with rfl
          exact hg.1
      have hs2nodup : dsNodup s → dsNodup s2 := fun hn => hs1nodup hn
      by_cases hrender : env.renderOk t.url
      · cases hhost : jsHostname t.url with
        | none =>
          have hstep : dsStep env md s = s2 := by
            simp [dsStep, hq, hg, hrender, hhost, hs2, hs1]
          rw [hstep]
          exact ⟨hs2core, hs2nodup⟩
        | some dom =>
          have hstep : dsStep env md s = (env.anchors t.url).foldl (dsLinkStep t dom) s2 := by
            simp [dsStep, hq, hg, hrender, hhost, hs2, hs1]
          rw [hstep]
          have hexp := dsExpand_pres env md t dom hg.2 (env.anchors t.url) s2 hs2core
          exact ⟨hexp.1, fun hn => hexp.2 (hs2nodup hn)⟩
      · have hstep : dsStep env md s = s2 := by
          simp [dsStep, hq, hg, hrender, hs2, hs1]
        rw [hstep]
        exact ⟨hs2core, hs2nodup⟩
    · have hstep : dsStep env md s = s1 := by
        simp [dsStep, hq, hg, hs1]
      rw [hstep]
      exact ⟨hs1core, hs1nodup⟩

theorem dsRun_core (env : DsEnv) (md : Nat) (startUrls : List String) :
    ∀ n, dsInvCore env md (dsRun env md startUrls n) := by
  intro n
  induction n with
  | zero =>
    refine ⟨?_, ?_, ?_, ?_, rfl⟩
    · intro t ht
      rcases List.mem_map.mp ht with ⟨u, hu, rfl⟩
      exact ⟨mem_foldl_setAdd _ [] u (.inr hu), Nat.zero_le md⟩
    · intro t ht; simp [dsRun, dsInit] at ht
    · intro p hp; simp [dsRun, dsInit] at hp
    · intro u hu; simp [dsRun, dsInit] at hu
  | succ n ih => exact (dsStep_pres env md _ ih).1

theorem dsRun_nodup (env : DsEnv) (md : Nat) (startUrls : List String)
    (h : (splitSeeds startUrls).Nodup) :
    ∀ n, dsNodup (dsRun env md startUrls n) := by
  intro n
  induction n with
  | zero =>
    unfold dsNodup
    simpa [dsRun, dsInit, List.map_map, Function.comp_def] using h
  | succ n ih => exact (dsStep_pres env md _ (dsRun_core env md startUrls n)).2 ih

theorem spLinkStep_pres (env : SpEnv) (dom : String) (md : Nat) (seeds : List String)
    (t : CrawlTask) (ht : t.depth < md) (hhead : env.head t.url = some true)
    (rawLink : String) (s : SpState) (h : spInv env dom md seeds s) :
    spInv env dom md seeds (spLinkStep dom t s rawLink) := by
  obtain ⟨h1, h2, h3, h4, h5⟩ := h
  cases hr : jsResolve rawLink t.url with
  | none => simpa [spLinkStep, hr] using ⟨h1, h2, h3, h4, h5⟩
  | some link =>
    by_cases hskip : isImageUrl link ∨ link ∈ s.visited ∨ link ∈ s.queuedSet
    · simpa [spLinkStep, hr, if_pos hskip] using ⟨h1, h2, h3, h4, h5⟩
    · have hns : ¬(isImageUrl link = true ∨ link ∈ s.visited ∨ link ∈ s.queuedSet) := hskip
      push_neg at hskip
      have himg : isImageUrl link = false := by
        rcases hskip with ⟨ha, _, _⟩
        exact Bool.not_eq_true _ ▸ (by simpa using ha)
      have hJ1 : ∀ qs, (∀ p ∈ s.pushes,
          jsHostname p.child.url = some dom ∧ isImageUrl p.child.url = false ∧
          p.parent.depth < md ∧ env.head p.parent.url = some true ∧
          p.child.url ∈ qs ∧ p.child.depth = p.parent.depth + 1) →
          ∀ p ∈ s.pushes,
          jsHostname p.child.url = some dom ∧ isImageUrl p.child.url = false ∧
          p.parent.depth < md ∧ env.head p.parent.url = some true ∧
          p.child.url ∈ setAdd qs link ∧ p.child.depth = p.parent.depth + 1 :=
        fun qs hq p hp =>
          ⟨(hq p hp).1, (hq p hp).2.1, (hq p hp).2.2.1, (hq p hp).2.2.2.1,
            mem_setAdd_of_mem link (hq p hp).2.2.2.2.1, (hq p hp).2.2.2.2.2⟩
      have hJ4 : ∀ u ∈ setAdd s.queuedSet link, u ∈ setAdd s.linksList link := by
        intro u hu
        rcases mem_setAdd_iff.mp hu with hu | rfl
        · exact mem_setAdd_of_mem link (h4 u hu)
        · exact mem_setAdd_self _ u
      cases hh : jsHostname link with
      | none =>
        have hstep : spLinkStep dom t s rawLink =
            { s with
              linksList := setAdd s.linksList link
              queuedSet := setAdd s.queuedSet link } := by
          simp [spLinkStep, hr, hh, hns]
        rw [hstep]
        exact ⟨hJ1 s.queuedSet h1, h2, h3, hJ4, h5⟩
      | some linkDom =>
        by_cases hd : linkDom = dom
        · have hstep : spLinkStep dom t s rawLink =
              { s with
                linksList := setAdd s.linksList link
                queuedSet := setAdd s.queuedSet link
                queue := s.queue ++ [⟨link, t.depth + 1⟩]
                pushes := s.pushes ++ [⟨t, ⟨link, t.depth + 1⟩⟩] } := by
            simp [spLinkStep, hr, hh, hns, if_pos hd]
          rw [hstep]
          refine ⟨?_, h2, h3, hJ4, ?_⟩
          · intro p hp
            rcases List.mem_append.mp hp with hp | hp
            · exact hJ1 s.queuedSet h1 p hp
            · rcases List.mem_singleton.mp hp with rfl
              exact ⟨by rw [hh, hd], himg, ht, hhead, mem_setAdd_self _ link, rfl⟩
          · intro x hx
            rcases List.mem_append.mp hx with hx | hx
            · rcases List.mem_append.mp hx with hx | hx
              · exact h5 x (List.mem_append_left _ hx)
              · rcases List.mem_singleton.mp hx with rfl
                exact ⟨.inr ⟨by rw [hh, hd], himg⟩, ht⟩
            · exact h5 x (List.mem_append_right _ hx)
        · have hstep : spLinkStep dom t s rawLink =
              { s with
                linksList := setAdd s.linksList link
                queuedSet := setAdd s.queuedSet link } := by
            simp [spLinkStep, hr, hh, hns, if_neg hd]
          rw [hstep]
          exact ⟨hJ1 s.queuedSet h1, h2, h3, hJ4, h5⟩

theorem spFinishTask_pres (env : SpEnv) (dom : String) (md : Nat) (seeds : List String)
    (u : String) (himg : isImageUrl u = false) (s : SpState)
    (h : spInv env dom md seeds s) : spInv env dom md seeds (spFinishTask u s) := by
  obtain ⟨h1, h2, h3, h4, h5⟩ := h
  refine ⟨h1, h2, ?_, h4, h5⟩
  intro x hx
  rcases List.mem_append.mp hx with hx | hx
  · exact h3 x hx
  · rcases List.mem_singleton.mp hx with rfl
    exact himg

theorem spExpand_pres (env : SpEnv) (dom : String) (md : Nat) (seeds : List String)
    (t : CrawlTask) (ht : t.depth < md) (hhead : env.head t.url = some true) :
    ∀ (links : List String) (s : SpState), spInv env dom md seeds s →
      spInv env dom md seeds (links.foldl (spLinkStep dom t) s) := by
  intro links
  induction links with
  | nil => exact fun s h => h
  | cons l ls ih =>
    intro s h
    exact ih _ (spLinkStep_pres env dom md seeds t ht hhead l s h)

theorem spStep_pres (env : SpEnv) (dom : String) (md : Nat) (seeds : List String)
    (s : SpState) (h : spInv env dom md seeds s) :
    spInv env dom md seeds (spStep env dom md s) := by
  obtain ⟨h1, h2, h3, h4, h5⟩ := h
  cases hq : s.queue with
  | nil =>
    have hstep : spStep env dom md s = s := by simp [spStep, hq]
    rw [hstep]
    exact ⟨h1, h2, h3, h4, h5⟩
  | cons t rest =>
    have hmemq : t ∈ s.queue := by rw [hq]; exact List.mem_cons_self t rest
    have h5t := h5 t (List.mem_append_left _ hmemq)
    have hJ5s0 : ∀ x ∈ rest ++ (s.dequeued ++ [t]),
        (x ∈ seeds.map (fun u => ⟨u, 0⟩) ∨
          (jsHostname x.url = some dom ∧ isImageUrl x.url = false)) ∧ x.depth ≤ md := by
      intro x hx
      apply h5
      rcases List.mem_append.mp hx with hx | hx
      · exact List.mem_append_left _ (by rw [hq]; exact List.mem_cons_of_mem t hx)
      · rcases List.mem_append.mp hx with hx | hx
        · exact List.mem_append_right _ hx
        · rcases List.mem_singleton.mp hx with rfl
          exact List.mem_append_left _ hmemq
    by_cases hskip : md ≤ t.depth ∨ t.url ∈ s.visited ∨ isImageUrl t.url
    · have hstep : spStep env dom md s =
          { s with queue := rest, dequeued := s.dequeued ++ [t] } := by
        simp [spStep, hq, if_pos hskip]
      rw [hstep]
      exact ⟨h1, h2, h3, h4, hJ5s0⟩
    · have hns : ¬(md ≤ t.depth ∨ t.url ∈ s.visited ∨ isImageUrl t.url = true) := hskip
      push_neg at hskip
      obtain ⟨ht, hnv, himgp⟩ := hskip
      have himg : isImageUrl t.url = false := by simpa using himgp
      set s1 : SpState :=
        { s with
          queue := rest
          dequeued := s.dequeued ++ [t]
          visited := s.visited ++ [t.url] } with hs1
      have hs1inv : spInv env dom md seeds s1 := by
        refine ⟨h1, ?_, h3, h4, hJ5s0⟩
        intro u hu
        rcases List.mem_append.mp hu with hu | hu
        · exact h2 u hu
        · rcases List.mem_singleton.mp hu with rfl
          exact himg
      cases hhead : env.head t.url with
      | none =>
        have hstep : spStep env dom md s =
            spFinishTask t.url { s1 with brokenLinks := setAdd s1.brokenLinks t.url } := by
          simp [spStep, hq, hns, hhead, hs1]
        rw [hstep]
        exact spFinishTask_pres env dom md seeds t.url himg _
          ⟨hs1inv.1, hs1inv.2.1, hs1inv.2.2.1, hs1inv.2.2.2.1, hs1inv.2.2.2.2⟩
      | some b =>
        cases b with
        | false =>
          have hstep : spStep env dom md s = s1 := by
            simp [spStep, hq, hns, hhead, hs1]
          rw [hstep]
          exact hs1inv
        | true =>
          cases hpage : env.page t.url with
          | none =>
            have hstep : spStep env dom md s =
                spFinishTask t.url { s1 with brokenLinks := setAdd s1.brokenLinks t.url } := by
              simp [spStep, hq, hns, hhead, hpage, hs1]
            rw [hstep]
            exact spFinishTask_pres env dom md seeds t.url himg _
              ⟨hs1inv.1, hs1inv.2.1, hs1inv.2.2.1, hs1inv.2.2.2.1, hs1inv.2.2.2.2⟩
          | some data =>
            have hstep : spStep env dom md s =
                spFinishTask t.url ((extractHrefs data).foldl (spLinkStep dom t) s1) := by
              simp [spStep, hq, hns, hhead, hpage, hs1]
            rw [hstep]
            have hexp := spExpand_pres env dom md seeds t ht hhead (extractHrefs data) s1 hs1inv
            exact spFinishTask_pres env dom md seeds t.url himg _ hexp

theorem spIter_inv (env : SpEnv) (dom : String) (md : Nat) (seeds : List String)
    (s0 : SpState) (h0 : spInv env dom md seeds s0) :
    ∀ n, spInv env dom md seeds (spIter env dom md s0 n) := by
  intro n
  induction n with
  | zero => exact h0
  | succ n ih => exact spStep_pres env dom md seeds _ ih

theorem spRun_inv (env : SpEnv) (md : Nat) (startUrls : List String) (n : Nat)
    (dom : String) (s : SpState) (h : spRun env md startUrls n = some (dom, s)) :
    spInv env dom md startUrls s := by
  cases startUrls with
  | nil => simp [spRun, spInit] at h
  | cons u0 tl =>
    cases hh0 : jsHostname u0 with
    | none => simp [spRun, spInit, hh0] at h
    | some d =>
      have hini : spInit (u0 :: tl) = some (d,
          { queue := (u0 :: tl).map (fun u => ⟨u, 0⟩)
            visited := []
            queuedSet := []
            linksList := []
            brokenLinks := []
            incomingLinks := []
            dequeued := []
            pushes := []
            scraped := [] }) := by
        simp [spInit, hh0]
      rw [spRun, hini] at h
      simp only [Option.some_inj] at h
      obtain ⟨rfl, rfl⟩ := Prod.mk.injEq .. ▸ h
      apply spIter_inv
      refine ⟨?_, ?_, ?_, ?_, ?_⟩
      · intro p hp; simp at hp
      · intro u hu; simp at hu
      · intro u hu; simp at hu
      · intro u hu; simp at hu
      · intro x hx
        simp only [List.append_nil] at hx
        rcases List.mem_map.mp hx with ⟨u, hu, rfl⟩
        exact ⟨.inl (List.mem_map.mpr ⟨u, hu, rfl⟩), Nat.zero_le md⟩

theorem spLinkStep_dequeued (dom : String) (t : CrawlTask) (s : SpState) (rawLink : String) :
    (spLinkStep dom t s rawLink).dequeued = s.dequeued := by
  cases hr : jsResolve rawLink t.url with
  | none => simp [spLinkStep, hr]
  | some link =>
    by_cases hskip : isImageUrl link ∨ link ∈ s.visited ∨ link ∈ s.queuedSet
    · simp [spLinkStep, hr, hskip]
    · cases hh : jsHostname link with
      | none => simp [spLinkStep, hr, hskip, hh]
      | some linkDom =>
        by_cases hd : linkDom = dom
        · simp [spLinkStep, hr, hskip, hh, hd]
        · simp [spLinkStep, hr, hskip, hh, hd]

theorem spExpand_dequeued (dom : String) (t : CrawlTask) :
    ∀ (links : List String) (s : SpState),
      (links.foldl (spLinkStep dom t) s).dequeued = s.dequeued := by
  intro links
  induction links with
  | nil => intro s; rfl
  | cons l ls ih =>
    intro s
    rw [List.foldl_cons, ih, spLinkStep_dequeued]

theorem spStep_progress (env : SpEnv) (dom : String) (md : Nat) (s : SpState)
    (h : s.queue ≠ []) :
    ∃ t, (spStep env dom md s).dequeued = s.dequeued ++ [t] := by
  cases hq : s.queue with
  | nil => exact absurd hq h
  | cons t rest =>
    refine ⟨t, ?_⟩
    by_cases hskip : md ≤ t.depth ∨ t.url ∈ s.visited ∨ isImageUrl t.url = true
    · simp [spStep, hq, hskip]
    · cases hhead : env.head t.url with
      | none => simp [spStep, hq, hskip, hhead, spFinishTask]
      | some b =>
        cases b with
        | false => simp [spStep, hq, hskip, hhead]
        | true =>
          cases hpage : env.page t.url with
          | none => simp [spStep, hq, hskip, hhead, hpage, spFinishTask]
          | some data =>
            have hfold := spExpand_dequeued dom t (extractHrefs data)
              { s with
                queue := rest
                dequeued := s.dequeued ++ [t]
                visited := s.visited ++ [t.url] }
            simp [spStep, hq, hskip, hhead, hpage, spFinishTask, hfold]

theorem dsStep_progress (env : DsEnv) (md : Nat) (s : DsState) (h : s.queue ≠ []) :
    ∃ t, (dsStep env md s).dequeued = s.dequeued ++ [t] := by
  cases hq : s.queue with
  | nil => exact absurd hq h
  | cons t rest =>
    refine ⟨t, ?_⟩
    by_cases hg : dsStatusOk (env.probe t.url) ∧ t.depth < md
    · by_cases hrender : env.renderOk t.url
      · cases hhost : jsHostname t.url with
        | none => simp [dsStep, hq, hg, hrender, hhost]
        | some dom =>
          have hstep : dsStep env md s = (env.anchors t.url).foldl (dsLinkStep t dom)
              { s with
                queue := rest
                results := s.results ++ [(t.url, env.probe t.url)]
                dequeued := s.dequeued ++ [t]
                rendered := s.rendered ++ [t.url] } := by
            simp [dsStep, hq, hg, hrender, hhost]
          rw [hstep, (dsExpand_fields t dom (env.anchors t.url) _).1]
      · simp [dsStep, hq, hg, hrender]
    · simp [dsStep, hq, hg]

theorem takeWhile_colon_append (l rest : List Char) (h : ∀ c ∈ l, c ≠ ':') :
    (l ++ ':' :: rest).takeWhile (fun c => c ≠ ':') = l ∧
    (l ++ ':' :: rest).dropWhile (fun c => c ≠ ':') = ':' :: rest := by
  induction l with
  | nil => simp [List.takeWhile_cons, List.dropWhile_cons]
  | cons a as ih =>
    have ha : a ≠ ':' := h a (List.mem_cons_self a as)
    have htail := ih (fun c hc => h c (List.mem_cons_of_mem a hc))
    simp only [ne_eq, decide_not] at htail ⊢
    simp [List.takeWhile_cons, List.dropWhile_cons, ha, htail.1, htail.2]

theorem isAlpha_not_special {c : Char} (h : c.isAlpha) :
    c ≠ ':' ∧ c ≠ '/' ∧ c ≠ '#' ∧ c ≠ '?' := by
  refine ⟨?_, ?_, ?_, ?_⟩ <;> intro e <;> subst e <;> exact absurd h (by decide)

theorem jsParseAbs_scheme_case (s1 s2 rest : List Char)
    (h1 : s1 ≠ []) (h2 : s2 ≠ [])
    (ha1 : ∀ c ∈ s1, c.isAlpha) (ha2 : ∀ c ∈ s2, c.isAlpha)
    (hmap : s1.map Char.toLower = s2.map Char.toLower) :
    jsParseAbs (s1 ++ ':' :: rest) = jsParseAbs (s2 ++ ':' :: rest) := by
  have hc1 : ∀ c ∈ s1, c ≠ ':' := fun c hc => (isAlpha_not_special (ha1 c hc)).1
  have hc2 : ∀ c ∈ s2, c ≠ ':' := fun c hc => (isAlpha_not_special (ha2 c hc)).1
  obtain ⟨ht1, hd1⟩ := takeWhile_colon_append s1 rest hc1
  obtain ⟨ht2, hd2⟩ := takeWhile_colon_append s2 rest hc2
  simp only [jsParseAbs, ht1, hd1, ht2, hd2]
  rw [if_pos ⟨h1, List.all_eq_true.mpr ha1⟩, if_pos ⟨h2, List.all_eq_true.mpr ha2⟩, hmap]

theorem jsRelResolve_alpha_colon (b : JsUrl) (l rest : List Char) (hne : l ≠ [])
    (ha : ∀ c ∈ l, c.isAlpha) : jsRelResolve b (l ++ ':' :: rest) = none := by
  cases l with
  | nil => exact absurd rfl hne
  | cons a as =>
    have haa := isAlpha_not_special (ha a (List.mem_cons_self a as))
    have hmem : ':' ∈ (a :: as) ++ ':' :: rest :=
      List.mem_append_right _ (List.mem_cons_self ':' rest)
    have hpre : "//".toList.isPrefixOf ((a :: as) ++ ':' :: rest) = false := by
      have hba : ('/' == a) = false := by
        cases e : ('/' == a)
        · rfl
        · exact absurd (beq_iff_eq.mp e).symm haa.2.1
      have h0 : "//".toList = ['/', '/'] := rfl
      rw [h0]
      simp only [List.cons_append, List.isPrefixOf, hba, Bool.false_and]
    have hhd : ((a :: as) ++ ':' :: rest).head? = some a := by simp
    rw [jsRelResolve]
    rw [if_neg (by simp), if_neg (by simp; intro e; exact absurd e.symm haa.2.1),
      if_neg (by rw [hhd]; simpa using haa.2.1),
      if_neg (by rw [hhd]; simpa using haa.2.2.1),
      if_neg (by rw [hhd]; simpa using haa.2.2.2),
      if_pos hmem]

theorem jsResolveL_scheme_case (s1 s2 rest base : List Char)
    (h1 : s1 ≠ []) (ha1 : ∀ c ∈ s1, c.isAlpha) (ha2 : ∀ c ∈ s2, c.isAlpha)
    (hmap : s1.map Char.toLower = s2.map Char.toLower) :
    jsResolveL (s1 ++ ':' :: rest) base = jsResolveL (s2 ++ ':' :: rest) base := by
  have h2 : s2 ≠ [] := by
    intro e
    subst e
    simp only [List.map_nil, List.map_eq_nil_iff] at hmap
    exact h1 hmap
  have hparse := jsParseAbs_scheme_case s1 s2 rest h1 h2 ha1 ha2 hmap
  cases hb : jsParseAbs base with
  | none => simp [jsResolveL, hb]
  | some b =>
    cases hl : jsParseAbs (s2 ++ ':' :: rest) with
    | some u => simp [jsResolveL, hb, hparse, hl]
    | none =>
      simp only [jsResolveL, hb, hparse, hl]
      rw [jsRelResolve_alpha_colon b s1 rest h1 ha1,
        jsRelResolve_alpha_colon b s2 rest h2 ha2]

theorem fixAttrAt_spec (s attr after : List Char) (h : fixAttrAt s = some (attr, after)) :
    s = attr ++ '=' :: '"' :: after ∧ attr ≠ [] := by
  unfold fixAttrAt at h
  by_cases h1 : "src=\"".toList.isPrefixOf s
  · rw [if_pos h1] at h
    obtain ⟨t, ht⟩ := List.isPrefixOf_iff_prefix.mp h1
    simp only [Option.some_inj, Prod.mk.injEq] at h
    obtain ⟨rfl, hafter⟩ := h
    have hdrop : s.drop 5 = t := by
      rw [← ht]
      have h5 : ("src=\"".toList).length = 5 := rfl
      rw [← h5, List.drop_left]
    rw [← hafter, hdrop, ← ht]
    exact ⟨rfl, by simp⟩
  · rw [if_neg h1] at h
    by_cases h2 : "href=\"".toList.isPrefixOf s
    · rw [if_pos h2] at h
      obtain ⟨t, ht⟩ := List.isPrefixOf_iff_prefix.mp h2
      simp only [Option.some_inj, Prod.mk.injEq] at h
      obtain ⟨rfl, hafter⟩ := h
      have hdrop : s.drop 6 = t := by
        rw [← ht]
        have h6 : ("href=\"".toList).length = 6 := rfl
        rw [← h6, List.drop_left]
      rw [← hafter, hdrop, ← ht]
      exact ⟨rfl, by simp⟩
    · rw [if_neg h2] at h
      exact absurd h (by simp)

theorem fixMatchAt_spec (s a l m r : List Char) (h : fixMatchAt s = some (a, l, m, r)) :
    ¬ ("http".toList <+: l) ∧ m = a ++ '=' :: '"' :: (l ++ ['"']) ∧
    m ++ r = s ∧ r.length < s.length := by
  unfold fixMatchAt at h
  cases hA : fixAttrAt s with
  | none => rw [hA] at h; exact absurd h (by simp)
  | some pr =>
    obtain ⟨attr, after⟩ := pr
    simp only [hA] at h
    obtain ⟨hs, hattr⟩ := fixAttrAt_spec s attr after hA
    by_cases hhttp : "http".toList.isPrefixOf after
    · rw [if_pos hhttp] at h
      exact absurd h (by simp)
    · rw [if_neg hhttp] at h
      by_cases hc : (after.dropWhile (fun c => c ≠ '"')).head? = some '"' ∧
          (after.takeWhile (fun c => c ≠ '"')).all (fun c => !lineTerm c)
      · rw [if_pos hc] at h
        simp only [Option.some_inj, Prod.mk.injEq] at h
        obtain ⟨rfl, rfl, rfl, rfl⟩ := h
        have hsplit : after.takeWhile (fun c => c ≠ '"') ++ after.dropWhile (fun c => c ≠ '"') =
            after := List.takeWhile_append_dropWhile _ after
        set cap := after.takeWhile (fun c => c ≠ '"') with hcap
        set rest := after.dropWhile (fun c => c ≠ '"') with hrest
        have hrest2 : rest = '"' :: rest.tail := by
          cases hre : rest with
          | nil => rw [hre] at hc; simp at hc
          | cons q tl =>
            rw [hre] at hc
            simp only [List.head?_cons, Option.some_inj] at hc
            rw [hc.1]
            rfl
        have hcapPre : cap <+: after := ⟨rest, hsplit⟩
        have h3 : rest.tail.length + 1 = rest.length := by
          conv_rhs => rw [hrest2]
          simp
        refine ⟨?_, rfl, ?_, ?_⟩
        · intro hp
          exact hhttp (List.isPrefixOf_iff_prefix.mpr (hp.trans hcapPre))
        · rw [hs, ← hsplit, hrest2]
          simp
        · rw [hs, ← hsplit]
          simp only [List.length_append, List.length_cons]
          omega
      · rw [if_neg hc] at h
        exact absurd h (by simp)

theorem fixScanLinksAux_not_http :
    ∀ (fuel : Nat) (s : List Char), ∀ l ∈ fixScanLinksAux fuel s, ¬("http".toList <+: l) := by
  intro fuel
  induction fuel with
  | zero => intro s l h; simp [fixScanLinksAux] at h
  | succ fuel ih =>
    intro s l h
    cases s with
    | nil => simp [fixScanLinksAux] at h
    | cons c cs =>
      cases hm : fixMatchAt (c :: cs) with
      | none =>
        rw [fixScanLinksAux, hm] at h
        exact ih cs l h
      | some q =>
        obtain ⟨a, lk, m, r⟩ := q
        rw [fixScanLinksAux, hm] at h
        rcases List.mem_cons.mp h with rfl | h
        · exact (fixMatchAt_spec (c :: cs) a l m r hm).1
        · exact ih r l h

theorem fixScanAux_id :
    ∀ (fuel : Nat) (s base : List Char),
      (∀ l ∈ fixScanLinksAux fuel s, jsResolveL l base = none) →
      fixScanAux base fuel s = s := by
  intro fuel
  induction fuel with
  | zero => intro s base _; rfl
  | succ fuel ih =>
    intro s base h
    cases s with
    | nil => rfl
    | cons c cs =>
      cases hm : fixMatchAt (c :: cs) with
      | none =>
        simp only [fixScanAux, hm]
        rw [ih cs base (fun l hl => h l (by rw [fixScanLinksAux, hm]; exact hl))]
      | some q =>
        obtain ⟨a, lk, m, r⟩ := q
        obtain ⟨_, hm2, hm3, _⟩ := fixMatchAt_spec (c :: cs) a lk m r hm
        have hres : jsResolveL lk base = none :=
          h lk (by rw [fixScanLinksAux, hm]; exact List.mem_cons_self lk _)
        simp only [fixScanAux, hm]
        have hrepl : fixRepl base a lk = m := by
          unfold fixRepl
          rw [hres, Option.getD_none, hm2]
        rw [hrepl, ih r base (fun l hl => h l (by rw [fixScanLinksAux, hm]; exact List.mem_cons_of_mem lk hl))]
        exact hm3

/-- C1 counterexample: with the duplicate seed list
`["https://a.com", "https://a.com"]` (which `deepscrape.cjs` enqueues without
checking `visited`), the same URL is dequeued twice, so the dedup claim fails
as stated for arbitrary seed lists. -/
theorem claim1_counterexample :
    (dsRun ⟨fun _ => .error, fun _ => false, fun _ => []⟩ 2
      ["https://a.com", "https://a.com"] 2).dequeued =
      [⟨"https://a.com", 0⟩, ⟨"https://a.com", 0⟩] ∧
    ¬ ((dsRun ⟨fun _ => .error, fun _ => false, fun _ => []⟩ 2
      ["https://a.com", "https://a.com"] 2).dequeued.map CrawlTask.url).Nodup :=
  ⟨by decide, by decide⟩

/-- C1 amended: when the processed seed list contains no duplicates, no URL
appears twice in the sequence of dequeued crawl tasks of the `deepscrape.cjs`
spider, for every environment, depth bound and number of loop iterations. -/
theorem claim1_amended (env : DsEnv) (md : Nat) (startUrls : List String)
    (h : (splitSeeds startUrls).Nodup) (n : Nat) :
    ((dsRun env md startUrls n).dequeued.map CrawlTask.url).Nodup :=
  (dsRun_nodup env md startUrls h n).of_append_left

/-- Witness instantiating `claim1_amended` on a concrete crawl. -/
theorem claim1_witness :
    (splitSeeds ["https://a.com"]).Nodup ∧
    ((dsRun ⟨fun _ => .error, fun _ => false, fun _ => []⟩ 2
      ["https://a.com"] 1).dequeued.map CrawlTask.url).Nodup :=
  ⟨by decide, claim1_amended ⟨fun _ => .error, fun _ => false, fun _ => []⟩ 2
    ["https://a.com"] (by decide) 1⟩

/-- C2 counterexample: with `maxDepth = 1`, processing the depth-0 seed
enqueues a child at depth `1 = maxDepth`, so a task is enqueued at
`depth ≥ maxDepth`, contradicting the claim. -/
theorem claim2_counterexample :
    (⟨⟨"https://a.com/", 0⟩, ⟨"https://a.com/b", 1⟩⟩ : PushRec) ∈
      (dsRun ⟨fun _ => .code 200, fun _ => true,
        fun u => if u = "https://a.com/" then ["https://a.com/b"] else []⟩
        1 ["https://a.com/"] 1).pushes ∧
    ¬ ((⟨"https://a.com/b", 1⟩ : CrawlTask).depth < 1) :=
  ⟨by decide, by decide⟩

/-- C2 amended: every task enqueued by link expansion in the `deepscrape.cjs`
spider has depth at least 1 and at most `maxDepth` (the depth guard is
`depth < maxDepth` on the parent, so children reach exactly `maxDepth` but
never exceed it). -/
theorem claim2_amended (env : DsEnv) (md : Nat) (startUrls : List String) (n : Nat) :
    ∀ p ∈ (dsRun env md startUrls n).pushes,
      1 ≤ p.child.depth ∧ p.child.depth ≤ md := by
  intro p hp
  have h3 := (dsRun_core env md startUrls n).2.2.1 p hp
  omega

/-- Witness instantiating `claim2_amended` on a concrete push. -/
theorem claim2_witness :
    1 ≤ (⟨⟨"https://a.com/", 0⟩, ⟨"https://a.com/b", 1⟩⟩ : PushRec).child.depth ∧
    (⟨⟨"https://a.com/", 0⟩, ⟨"https://a.com/b", 1⟩⟩ : PushRec).child.depth ≤ 2 :=
  claim2_amended ⟨fun _ => .code 200, fun _ => true,
    fun u => if u = "https://a.com/" then ["https://a.com/b"] else []⟩ 2
    ["https://a.com/"] 1 ⟨⟨"https://a.com/", 0⟩, ⟨"https://a.com/b", 1⟩⟩ (by decide)

/-- C3: in both spider implementations no dequeued task exceeds the depth
bound, and every enqueued child comes from a parent task strictly below
`maxDepth`, so a task at `depth = maxDepth` never produces a child. -/
theorem claim3_depth_limits :
    (∀ (env : DsEnv) (md : Nat) (startUrls : List String) (n : Nat),
      (∀ t ∈ (dsRun env md startUrls n).dequeued, t.depth ≤ md) ∧
      (∀ p ∈ (dsRun env md startUrls n).pushes, p.parent.depth < md)) ∧
    (∀ (env : SpEnv) (md : Nat) (startUrls : List String) (n : Nat) (p : String × SpState),
      spRun env md startUrls n = some p →
      (∀ t ∈ p.2.dequeued, t.depth ≤ md) ∧
      (∀ q ∈ p.2.pushes, q.parent.depth < md)) := by
  constructor
  · intro env md startUrls n
    have hc := dsRun_core env md startUrls n
    exact ⟨fun t ht => (hc.2.1 t ht).2, fun p hp => (hc.2.2.1 p hp).1⟩
  · intro env md startUrls n p h
    obtain ⟨dom, s⟩ := p
    have hi := spRun_inv env md startUrls n dom s h
    exact ⟨fun t ht => (hi.2.2.2.2 t (List.mem_append_right _ ht)).2,
      fun q hq => (hi.1 q hq).2.2.1⟩

/-- Witness instantiating both halves of `claim3_depth_limits`. -/
theorem claim3_witness :
    (∀ t ∈ (dsRun ⟨fun _ => .error, fun _ => false, fun _ => []⟩ 2
        ["https://a.com"] 1).dequeued, t.depth ≤ 2) ∧
    (∀ t ∈ (("a.com", (⟨[⟨"https://a.com/", 0⟩], [], [], [], [], [], [], [], []⟩ : SpState)) :
        String × SpState).2.dequeued, t.depth ≤ 2) :=
  ⟨(claim3_depth_limits.1 ⟨fun _ => .error, fun _ => false, fun _ => []⟩ 2
      ["https://a.com"] 1).1,
    (claim3_depth_limits.2 ⟨fun _ => some true, fun _ => some ""⟩ 2 ["https://a.com/"] 0
      ("a.com", ⟨[⟨"https://a.com/", 0⟩], [], [], [], [], [], [], [], []⟩) (by decide)).1⟩

/-- C4 counterexample: the only normalization the code applies to discovered
links is `new URL(link, url).href`; two URLs differing only by fragment
resolve to distinct values and the crawl enqueues two frontier entries for
them instead of collapsing them. -/
theorem claim4_counterexample :
    jsResolve "/p" "https://a.com/" = some "https://a.com/p" ∧
    jsResolve "/p#x" "https://a.com/" = some "https://a.com/p#x" ∧
    jsResolve "/p" "https://a.com/" ≠ jsResolve "/p#x" "https://a.com/" ∧
    (spRun ⟨fun _ => some true,
        fun u => if u = "https://a.com/"
          then some "<a href=\"/p\"><a href=\"/p#x\">" else some ""⟩
      2 ["https://a.com/"] 1).map (fun p => p.2.queue) =
      some [⟨"https://a.com/p", 1⟩, ⟨"https://a.com/p#x", 1⟩] :=
  ⟨by decide, by decide, by decide, by decide⟩

/-- C4 amended: the normalization performed by `new URL(link, base).href`
collapses only letter-case differences of the scheme: two URL strings that
agree after the scheme (and whose schemes agree up to case) resolve
identically against any base. -/
theorem claim4_amended (s1 s2 rest base : List Char) (h1 : s1 ≠ [])
    (ha1 : ∀ c ∈ s1, c.isAlpha) (ha2 : ∀ c ∈ s2, c.isAlpha)
    (hmap : s1.map Char.toLower = s2.map Char.toLower) :
    jsResolveL (s1 ++ ':' :: rest) base = jsResolveL (s2 ++ ':' :: rest) base :=
  jsResolveL_scheme_case s1 s2 rest base h1 ha1 ha2 hmap

/-- Witness instantiating `claim4_amended`: `HTTPS://a.com/p` and
`https://a.com/p` normalize identically. -/
theorem claim4_witness :
    jsResolveL ("HTTPS".toList ++ ':' :: "//a.com/p".toList) "https://a.com/".toList =
      jsResolveL ("https".toList ++ ':' :: "//a.com/p".toList) "https://a.com/".toList :=
  claim4_amended "HTTPS".toList "https".toList "//a.com/p".toList "https://a.com/".toList
    (by decide) (by decide) (by decide) (by decide)

/-- C5 counterexample: a link discovered on the fetched seed page whose host
(`other.com`) differs from the seed host (`a.com`) is dropped by the image
filter before `linksList.add`, so it never reaches the discovered-link
report. -/
theorem claim5_counterexample :
    jsHostname "https://other.com/logo.png" = some "other.com" ∧
    jsHostname "https://a.com/" = some "a.com" ∧
    extractHrefs "<a href=\"https://other.com/logo.png\">" =
      ["https://other.com/logo.png"] ∧
    (spRun ⟨fun _ => some true,
        fun u => if u = "https://a.com/"
          then some "<a href=\"https://other.com/logo.png\">" else some ""⟩
      2 ["https://a.com/"] 2).map (fun p => p.2.linksList) = some [] :=
  ⟨by decide, by decide, by decide, by decide⟩

/-- C5 amended: in the `src/spider.js` spider, every task enqueued by link
expansion carries the crawl domain (cross-host links are never enqueued, so
every dequeued task is a seed or has the seed's host), and every URL marked
queued — in particular every enqueued link — is recorded in the all-links
list. -/
theorem claim5_amended (env : SpEnv) (md : Nat) (startUrls : List String) (n : Nat)
    (p : String × SpState) (h : spRun env md startUrls n = some p) :
    (∀ q ∈ p.2.pushes, jsHostname q.child.url = some p.1) ∧
    (∀ t ∈ p.2.dequeued,
      t ∈ startUrls.map (fun u => ⟨u, 0⟩) ∨ jsHostname t.url = some p.1) ∧
    (∀ u ∈ p.2.queuedSet, u ∈ p.2.linksList) := by
  obtain ⟨dom, s⟩ := p
  have hi := spRun_inv env md startUrls n dom s h
  exact ⟨fun q hq => (hi.1 q hq).1,
    fun t ht => ((hi.2.2.2.2 t (List.mem_append_right _ ht)).1).imp_right And.left,
    hi.2.2.2.1⟩

/-- Witness instantiating `claim5_amended` on the push performed by a
concrete crawl: the enqueued child carries the seed host. -/
theorem claim5_witness :
    jsHostname (⟨⟨"https://a.com/", 0⟩, ⟨"https://a.com/b", 1⟩⟩ : PushRec).child.url =
      some "a.com" :=
  (claim5_amended
    ⟨fun _ => some true,
      fun u => if u = "https://a.com/" then some "<a href=\"/b\">" else some ""⟩
    2 ["https://a.com/"] 1
    ("a.com",
      ⟨[⟨"https://a.com/b", 1⟩], ["https://a.com/"], ["https://a.com/b"],
        ["https://a.com/b"], [], [("https://a.com/", ["https://a.com/"])],
        [⟨"https://a.com/", 0⟩],
        [⟨⟨"https://a.com/", 0⟩, ⟨"https://a.com/b", 1⟩⟩], ["https://a.com/"]⟩)
    (by decide)).1 ⟨⟨"https://a.com/", 0⟩, ⟨"https://a.com/b", 1⟩⟩ (by decide)

/-- C6 counterexample, in both cited implementations.  The `deepscrape.cjs`
spider has no image filter at all: a same-domain `/logo.png` anchor is
enqueued by link expansion, then dequeued, probed and rendered like any
other link.  And in `src/spider.js`, where the filter does exist, an image
URL supplied as a seed is still enqueued onto the frontier and later shifted
off it (the filter applies only at dequeue time and to discovered links).
So the claim that an image URL is never enqueued and never appears as a
dequeued task fails. -/
theorem claim6_counterexample :
    isImageUrl "https://a.com/logo.png" = true ∧
    (dsRun ⟨fun _ => .code 200, fun _ => true,
        fun u => if u = "https://a.com/" then ["https://a.com/logo.png"] else []⟩
      2 ["https://a.com/"] 1).queue = [⟨"https://a.com/logo.png", 1⟩] ∧
    (dsRun ⟨fun _ => .code 200, fun _ => true,
        fun u => if u = "https://a.com/" then ["https://a.com/logo.png"] else []⟩
      2 ["https://a.com/"] 2).dequeued =
      [⟨"https://a.com/", 0⟩, ⟨"https://a.com/logo.png", 1⟩] ∧
    (dsRun ⟨fun _ => .code 200, fun _ => true,
        fun u => if u = "https://a.com/" then ["https://a.com/logo.png"] else []⟩
      2 ["https://a.com/"] 2).rendered =
      ["https://a.com/", "https://a.com/logo.png"] ∧
    (spRun ⟨fun _ => some true, fun _ => some ""⟩ 2 ["https://a.com/logo.png"] 0).map
      (fun p => p.2.queue) = some [⟨"https://a.com/logo.png", 0⟩] ∧
    (spRun ⟨fun _ => some true, fun _ => some ""⟩ 2 ["https://a.com/logo.png"] 1).map
      (fun p => p.2.dequeued) = some [⟨"https://a.com/logo.png", 0⟩] :=
  ⟨by decide, by decide, by decide, by decide, by decide, by decide⟩

/-- C6 amended: the image guarantee holds only in the `src/spider.js` spider
(`deepscrape.cjs` applies no image filter, as the counterexample shows), and
there only for link expansion and processing: no image URL is ever enqueued
by link expansion, and no image URL is ever processed — visited and scraped
URLs are never image URLs, and any image task in the dequeue history can only
be a seed (which the dequeue-time filter skips before probing). -/
theorem claim6_amended (env : SpEnv) (md : Nat) (startUrls : List String) (n : Nat)
    (p : String × SpState) (h : spRun env md startUrls n = some p) :
    (∀ q ∈ p.2.pushes, isImageUrl q.child.url = false) ∧
    (∀ u ∈ p.2.visited, isImageUrl u = false) ∧
    (∀ u ∈ p.2.scraped, isImageUrl u = false) ∧
    (∀ t ∈ p.2.dequeued,
      t ∈ startUrls.map (fun u => ⟨u, 0⟩) ∨ isImageUrl t.url = false) := by
  obtain ⟨dom, s⟩ := p
  have hi := spRun_inv env md startUrls n dom s h
  exact ⟨fun q hq => (hi.1 q hq).2.1, hi.2.1, hi.2.2.1,
    fun t ht => ((hi.2.2.2.2 t (List.mem_append_right _ ht)).1).imp_right And.right⟩

/-- Witness instantiating `claim6_amended` on the push performed by a
concrete crawl: the enqueued child is not an image URL. -/
theorem claim6_witness :
    isImageUrl (⟨⟨"https://a.com/", 0⟩, ⟨"https://a.com/b", 1⟩⟩ : PushRec).child.url =
      false :=
  (claim6_amended
    ⟨fun _ => some true,
      fun u => if u = "https://a.com/" then some "<a href=\"/b\">" else some ""⟩
    2 ["https://a.com/"] 1
    ("a.com",
      ⟨[⟨"https://a.com/b", 1⟩], ["https://a.com/"], ["https://a.com/b"],
        ["https://a.com/b"], [], [("https://a.com/", ["https://a.com/"])],
        [⟨"https://a.com/", 0⟩],
        [⟨⟨"https://a.com/", 0⟩, ⟨"https://a.com/b", 1⟩⟩], ["https://a.com/"]⟩)
    (by decide)).1 ⟨⟨"https://a.com/", 0⟩, ⟨"https://a.com/b", 1⟩⟩ (by decide)

/-- C7 counterexample: in `src/spider.js`, a task whose HEAD probe throws is
recorded in `brokenLinks` but is then still passed to `scrapePage`
(render and artifact persistence), contradicting the claim that processing
stops after recording. -/
theorem claim7_counterexample :
    (spRun ⟨fun _ => none, fun _ => none⟩ 2 ["https://a.com/"] 1).map
      (fun p => (p.2.brokenLinks, p.2.scraped)) =
    some (["https://a.com/"], ["https://a.com/"]) := by decide

/-- C7 amended: in the `deepscrape.cjs` spider every dequeued task — failed
probes included — is recorded with its status code or ERROR marker, the
Puppeteer phase is never entered for a task whose probe failed, and (for
duplicate-free seeds) no URL is dequeued twice, so a broken URL is not
retried; in the `src/spider.js` variant no link extraction happens for a
failed task (every enqueued child comes from a parent whose probe reported
HTML), but the page is still passed to `scrapePage` after recording. -/
theorem claim7_amended :
    (∀ (env : DsEnv) (md : Nat) (startUrls : List String) (n : Nat),
      (dsRun env md startUrls n).results =
        (dsRun env md startUrls n).dequeued.map (fun t => (t.url, env.probe t.url)) ∧
      (∀ u ∈ (dsRun env md startUrls n).rendered, dsStatusOk (env.probe u) = true) ∧
      ((splitSeeds startUrls).Nodup →
        ((dsRun env md startUrls n).dequeued.map CrawlTask.url).Nodup)) ∧
    (∀ (env : SpEnv) (md : Nat) (startUrls : List String) (n : Nat)
        (p : String × SpState),
      spRun env md startUrls n = some p →
      ∀ q ∈ p.2.pushes, env.head q.parent.url = some true) := by
  constructor
  · intro env md startUrls n
    have hc := dsRun_core env md startUrls n
    exact ⟨hc.2.2.2.2, hc.2.2.2.1,
      fun hnd => (dsRun_nodup env md startUrls hnd n).of_append_left⟩
  · intro env md startUrls n p h q hq
    obtain ⟨dom, s⟩ := p
    exact ((spRun_inv env md startUrls n dom s h).1 q hq).2.2.2.1

/-- Witness instantiating both halves of `claim7_amended`. -/
theorem claim7_witness :
    ((dsRun ⟨fun _ => .error, fun _ => false, fun _ => []⟩ 2
      ["https://a.com"] 1).dequeued.map CrawlTask.url).Nodup ∧
    (∀ q ∈ (("a.com", (⟨[⟨"https://a.com/", 0⟩], [], [], [], [], [], [], [], []⟩ : SpState)) :
      String × SpState).2.pushes,
      SpEnv.head ⟨fun _ => some true, fun _ => some ""⟩ q.parent.url = some true) :=
  ⟨(claim7_amended.1 ⟨fun _ => .error, fun _ => false, fun _ => []⟩ 2
      ["https://a.com"] 1).2.2 (by decide),
    claim7_amended.2 ⟨fun _ => some true, fun _ => some ""⟩ 2 ["https://a.com/"] 0
      ("a.com", ⟨[⟨"https://a.com/", 0⟩], [], [], [], [], [], [], [], []⟩) (by decide)⟩

/-- C8 counterexample: in `src/spider.js` a render failure is not always
contained.  `scrapePage` runs `browser.newPage()` / `page.setViewport`
before its try/catch, and the call at spider.js line 100 is unguarded, so
when that prelude rejects while processing the first task the crawl aborts:
the remaining queued task is never dequeued and the three report files are
never written (`spRunE` returns `none`). -/
theorem claim8_counterexample :
    spRunE (⟨fun _ => some true, fun _ => some "", fun _ => false⟩ : SpEnvX) 2
      ["https://a.com/", "https://a.com/b"] 1 = none ∧
    (spRunE (⟨fun _ => some true, fun _ => some "", fun _ => false⟩ : SpEnvX) 2
      ["https://a.com/", "https://a.com/b"] 0).map (fun p => p.2.queue) =
      some [⟨"https://a.com/", 0⟩, ⟨"https://a.com/b", 0⟩] :=
  ⟨by decide, by decide⟩

/-- C8 amended: per-task failures are contained except for one path.  In the
`deepscrape.cjs` spider a nonempty frontier always advances by exactly one
dequeued task per iteration regardless of probe, render or filesystem
failures (all of which the environment encodes), every dequeued task yields
exactly one recorded result, and the spider report is the header plus one
`url, status` line per dequeued task in dequeue order, so a completed crawl
produces its report even when every page failed.  In the `src/spider.js`
spider, whenever `scrapePage`'s uncaught prelude succeeds the loop body
never throws — every fetch, render and filesystem failure mode is contained
and the iteration equals the total step function — and a nonempty frontier
likewise advances by one dequeued task per iteration; only a failure of the
prelude itself aborts the crawl (the counterexample). -/
theorem claim8_amended :
    (∀ (env : DsEnv) (md : Nat) (startUrls : List String) (n : Nat),
      ((dsRun env md startUrls n).queue ≠ [] →
        ∃ t, (dsRun env md startUrls (n + 1)).dequeued =
          (dsRun env md startUrls n).dequeued ++ [t]) ∧
      (dsRun env md startUrls n).results =
        (dsRun env md startUrls n).dequeued.map (fun t => (t.url, env.probe t.url)) ∧
      dsReport (dsRun env md startUrls n).results =
        (dsRun env md startUrls n).dequeued.foldl
          (fun acc t => acc ++ t.url ++ ", " ++ dsStatusText (env.probe t.url) ++ "\n")
          "URL, STATUS\n") ∧
    (∀ (env : SpEnvX) (dom : String) (md : Nat) (s : SpState),
      (∀ u, env.newPageOk u = true) →
      spStepE env dom md s = some (spStep ⟨env.head, env.page⟩ dom md s)) ∧
    (∀ (env : SpEnv) (dom : String) (md : Nat) (s : SpState), s.queue ≠ [] →
      ∃ t, (spStep env dom md s).dequeued = s.dequeued ++ [t]) := by
  refine ⟨?_, ?_, ?_⟩
  · intro env md startUrls n
    refine ⟨?_, (dsRun_core env md startUrls n).2.2.2.2, ?_⟩
    · intro h
      exact dsStep_progress env md _ h
    · rw [(dsRun_core env md startUrls n).2.2.2.2]
      unfold dsReport
      rw [List.foldl_map]
  · intro env dom md s h
    cases hq : s.queue with
    | nil => simp [spStepE, spStep, hq]
    | cons t rest =>
      have hcond : ¬((¬(md ≤ t.depth ∨ t.url ∈ s.visited ∨ isImageUrl t.url) ∧
            env.head t.url ≠ some false) ∧ env.newPageOk t.url = false) := by
        intro hc
        rw [h t.url] at hc
        simp at hc
      simp only [spStepE, hq]
      rw [if_neg hcond]
  · exact fun env dom md s h => spStep_progress env dom md s h

/-- Witness instantiating all three parts of `claim8_amended` at concrete
inputs. -/
theorem claim8_witness :
    (∃ t, (dsRun ⟨fun _ => .error, fun _ => false, fun _ => []⟩ 2
        ["https://a.com"] 1).dequeued =
      (dsRun ⟨fun _ => .error, fun _ => false, fun _ => []⟩ 2
        ["https://a.com"] 0).dequeued ++ [t]) ∧
    spStepE (⟨fun _ => some true, fun _ => some "", fun _ => true⟩ : SpEnvX) "a.com" 2
        (⟨[⟨"https://a.com/", 0⟩], [], [], [], [], [], [], [], []⟩ : SpState) =
      some (spStep ⟨fun _ => some true, fun _ => some ""⟩ "a.com" 2
        (⟨[⟨"https://a.com/", 0⟩], [], [], [], [], [], [], [], []⟩ : SpState)) ∧
    (∃ t, (spStep ⟨fun _ => some true, fun _ => some ""⟩ "a.com" 2
        (⟨[⟨"https://a.com/", 0⟩], [], [], [], [], [], [], [], []⟩ : SpState)).dequeued =
      (⟨[⟨"https://a.com/", 0⟩], [], [], [], [], [], [], [], []⟩ : SpState).dequeued ++ [t]) :=
  ⟨(claim8_amended.1 ⟨fun _ => .error, fun _ => false, fun _ => []⟩ 2
      ["https://a.com"] 0).1 (by decide),
    claim8_amended.2.1 ⟨fun _ => some true, fun _ => some "", fun _ => true⟩ "a.com" 2
      ⟨[⟨"https://a.com/", 0⟩], [], [], [], [], [], [], [], []⟩ (fun u => rfl),
    claim8_amended.2.2 ⟨fun _ => some true, fun _ => some ""⟩ "a.com" 2
      ⟨[⟨"https://a.com/", 0⟩], [], [], [], [], [], [], [], []⟩ (by decide)⟩

/-- C9: evaluating the `src/spider.js` spider on a crawl where page
`https://a.com/` links to `https://a.com/b` shows that the incoming-links map
associates every crawled URL with a list containing only itself — `b`'s entry
is `[b]`, not the source page `a` on which it was discovered — although `b`
was recorded as a discovered link of `a`'s page. -/
theorem claim9_bug :
    (spRun ⟨fun _ => some true,
        fun u => if u = "https://a.com/" then some "<a href=\"/b\">" else some ""⟩
      2 ["https://a.com/"] 3).map (fun p => p.2.incomingLinks) =
      some [("https://a.com/", ["https://a.com/"]),
        ("https://a.com/b", ["https://a.com/b"])] ∧
    (spRun ⟨fun _ => some true,
        fun u => if u = "https://a.com/" then some "<a href=\"/b\">" else some ""⟩
      2 ["https://a.com/"] 3).map (fun p => p.2.linksList) =
      some ["https://a.com/b"] :=
  ⟨by decide, by decide⟩

/-- C10: per-value guarantees of the `fixRelativePaths` rewriter, valid in
any document, mixed documents included.  (1) At no position does the regex
capture a value starting with the literal `http` (the negative lookahead),
so such attribute values are never rewritten.  (2) Wherever the regex
matches a value that fails to resolve against the base, the scan emits the
matched text `attr="value"` character-for-character unchanged and continues
after it — whatever the rest of the document contains, including other
values that do resolve — and no error is raised (the catch returns the
original text).  (3) Text at which the regex does not match is copied
verbatim.  (4) Consequently a document in which every captured value fails
to resolve is returned unchanged. -/
theorem claim10_rewriter :
    (∀ (s a l m r : List Char), fixMatchAt s = some (a, l, m, r) →
      ¬("http".toList <+: l)) ∧
    (∀ (base : List Char) (fuel : Nat) (s a l m r : List Char),
      fixMatchAt s = some (a, l, m, r) → jsResolveL l base = none →
      fixScanAux base (fuel + 1) s = m ++ fixScanAux base fuel r) ∧
    (∀ (base : List Char) (fuel : Nat) (c : Char) (cs : List Char),
      fixMatchAt (c :: cs) = none →
      fixScanAux base (fuel + 1) (c :: cs) = c :: fixScanAux base fuel cs) ∧
    (∀ (html base : String),
      (∀ l ∈ fixScanLinks html, jsResolveL l base.toList = none) →
      fixRelativePaths html base = html) := by
  refine ⟨?_, ?_, ?_, ?_⟩
  · intro s a l m r h
    exact (fixMatchAt_spec s a l m r h).1
  · intro base fuel s a l m r h hres
    obtain ⟨_, hm2, _, _⟩ := fixMatchAt_spec s a l m r h
    have hrepl : fixRepl base a l = m := by
      unfold fixRepl
      rw [hres, Option.getD_none, hm2]
    cases s with
    | nil =>
      have hnil : fixMatchAt ([] : List Char) = none := by decide
      rw [hnil] at h
      exact absurd h (by simp)
    | cons c cs =>
      simp only [fixScanAux, h]
      rw [hrepl]
  · intro base fuel c cs h
    simp [fixScanAux, h]
  · intro html base h
    show (fixScanAux base.toList html.toList.length html.toList).asString = html
    rw [fixScanAux_id html.toList.length html.toList base.toList h]
    rfl

/-- Witness instantiating `claim10_rewriter` on a mixed document: the
unresolvable value `::x` is preserved verbatim while the scan continues onto
a remainder that contains the resolvable value `/i.png`, and a document
whose only captured value is unresolvable is returned unchanged. -/
theorem claim10_witness :
    fixScanAux "https://b.com/".toList 14 "href=\"::x\"><img src=\"/i.png\">".toList =
      "href=\"::x\"".toList ++
        fixScanAux "https://b.com/".toList 13 "><img src=\"/i.png\">".toList ∧
    fixRelativePaths "<a href=\"::x\">" "" = "<a href=\"::x\">" :=
  ⟨claim10_rewriter.2.1 "https://b.com/".toList 13
      "href=\"::x\"><img src=\"/i.png\">".toList "href".toList "::x".toList
      "href=\"::x\"".toList "><img src=\"/i.png\">".toList (by decide) (by decide),
    claim10_rewriter.2.2.2 "<a href=\"::x\">" "" (by decide)⟩
